import Mathlib

/-!
Verification of the URL-normalizer and path-allocator core of `reposort`
(`src/reposort/core.py`).

Strings are modelled as `List Char` (Python `str` is a sequence of code
points).  The model covers:

* `parse_git_url` (core.py lines 55-107), including
  - the `ssh://` branch (lines 66-81),
  - the `http(s)://` branch (lines 85-94) together with the fragment of
    CPython's `urllib.parse.urlparse` that it invokes (scheme/netloc/path
    splitting, removal of the WHATWG-unsafe bytes tab/CR/LF, the
    "Invalid IPv6 URL" `ValueError` for mismatched brackets in the netloc,
    `_splitparams`, and the `hostname` property which strips user info and
    the `:port` suffix and lowercases; the non-ASCII NFKC netloc check of
    `_checknetloc` is not modelled, so non-ASCII authorities are out of
    scope, and `Char.toLower` models `str.lower()` on ASCII),
  - the scheme-less shorthand branch (lines 96-106): the Python regex
    `^(?:[\w\-]+@)?([^:]+):(.+?)(?:\.git)?$` is modelled by its
    backtracking semantics, where `\w` is modelled as ASCII word
    characters, `.` matches any character but a newline, and `$` matches
    at the end or just before a trailing newline.
* `get_unique_target_path` (core.py lines 124-136), as a fuelled loop
  (the Python loop is unbounded; `none` means the fuel ran out), with the
  caller-supplied existence predicate of the spec's allocator contract.
-/

abbrev Str := List Char

/-- Code points of a string literal, for concrete test inputs. -/
def str (s : String) : Str := s.data

/-- Outcome of `parse_git_url`: a `(host, path)` pair, `None`, or a raised
exception escaping the function. -/
inductive PRes where
  | raised : PRes
  | fail : PRes
  | ok : Str → Str → PRes
deriving DecidableEq

/-- The literal `"ssh://"`. -/
def sshPre : Str := ['s', 's', 'h', ':', '/', '/']

/-- The literal `"http://"`. -/
def httpPre7 : Str := ['h', 't', 't', 'p', ':', '/', '/']

/-- The literal `"https://"`. -/
def httpsPre8 : Str := ['h', 't', 't', 'p', 's', ':', '/', '/']

/-- The literal `".git"`. -/
def dotGit : Str := ['.', 'g', 'i', 't']

/-- Python `s.split(c)[0]`: everything before the first `c` (all of `s`
when `c` is absent). -/
def beforeFirst (c : Char) (s : Str) : Str := s.takeWhile (· ≠ c)

/-- Python `s.split(c, 1)[1]` when `c` occurs in `s`: everything after the
first `c`. -/
def afterFirst (c : Char) (s : Str) : Str := (s.dropWhile (· ≠ c)).drop 1

/-- Python `s.rstrip("/")`. -/
def rstripSlash (s : Str) : Str := (s.reverse.dropWhile (· = '/')).reverse

/-- Python `s.lstrip("/")`. -/
def lstripSlash (s : Str) : Str := s.dropWhile (· = '/')

/-- Python `s[:-4] if s.endswith(".git") else s` (core.py lines 78-79,
91-92). -/
def stripDotGit (s : Str) : Str :=
  if dotGit.isSuffixOf s then s.take (s.length - 4) else s

/-- The `ssh://` branch, core.py lines 66-81.  `some` models the `return`
inside the branch, `none` the fall-through when the remainder (after
dropping a `user@` part) has no `/`. -/
def parseSsh (url : Str) : Option (Str × Str) :=
  let rest := url.drop 6
  let rest2 := if rest.contains '@' then afterFirst '@' rest else rest
  if rest2.contains '/' then
    let hostPart := beforeFirst '/' rest2
    let path0 := afterFirst '/' rest2
    some (beforeFirst ':' hostPart, rstripSlash (stripDotGit path0))
  else none

/-- The remainder the `ssh://` branch splits on: the URL after the 6-char
scheme marker, with everything up to the first `@` discarded when one is
present (core.py lines 68-71). -/
def sshRest2 (url : Str) : Str :=
  if (url.drop 6).contains '@' then afterFirst '@' (url.drop 6) else url.drop 6

/-- The WHATWG-unsafe bytes removed by `urlsplit`
(`_UNSAFE_URL_BYTES_TO_REMOVE = ['\t', '\r', '\n']`). -/
def ctlChar (c : Char) : Bool := c = '\t' || c = '\r' || c = '\n'

/-- `urlsplit`'s removal of tab, CR and LF from the whole URL. -/
def removeCtl (s : Str) : Str := s.filter (fun c => !ctlChar c)

/-- The netloc delimiters of `_splitnetloc` (`'/?#'`). -/
def netDelim (c : Char) : Bool := c = '/' || c = '?' || c = '#'

/-- `urlparse`'s `_splitparams`, restricted to the path it returns: the
`;params` part of the last path segment is dropped (of the whole string
when it has no `/`). -/
def splitparamsPath (u : Str) : Str :=
  if u.contains '/' then
    let seg := (u.reverse.takeWhile (· ≠ '/')).reverse
    u.take (u.length - seg.length) ++ seg.takeWhile (· ≠ ';')
  else beforeFirst ';' u

/-- The `hostname` property of a parse result: user info up to the last
`@` is dropped, a bracketed IPv6 host is the part between `[` and `]`,
otherwise the `:port` suffix is dropped; an empty host is `None`; the
result is lowercased except for a `%zone` suffix. -/
def pyHostname (netloc : Str) : Option Str :=
  let hostinfo := (netloc.reverse.takeWhile (· ≠ '@')).reverse
  let hn := if hostinfo.contains '['
            then beforeFirst ']' (afterFirst '[' hostinfo)
            else beforeFirst ':' hostinfo
  if hn.isEmpty then none
  else some ((hn.takeWhile (· ≠ '%')).map Char.toLower ++ hn.dropWhile (· ≠ '%'))

/-- The `http(s)://` branch, core.py lines 85-94, for a `url` that starts
with the scheme marker of length `schemeLen` (7 for `http://`, 8 for
`https://`).  `Except.error` models the `ValueError("Invalid IPv6 URL")`
raised by `urlsplit` when the netloc has a `[` without `]` or vice versa;
the caller does not catch it. -/
def httpParse (url : Str) (schemeLen : Nat) : Except Unit (Str × Str) :=
  let rest := (removeCtl url).drop schemeLen
  let netloc := rest.takeWhile (fun c => !netDelim c)
  let rem := rest.dropWhile (fun c => !netDelim c)
  if netloc.contains '[' != netloc.contains ']' then Except.error ()
  else
    let ppath := splitparamsPath (beforeFirst '?' (beforeFirst '#' rem))
    let host := (pyHostname netloc).getD netloc
    Except.ok (host, rstripSlash (stripDotGit (lstripSlash ppath)))

/-- Python `\w` or `-` (the class `[\w\-]`), modelled for ASCII. -/
def wordChar (c : Char) : Bool := c.isAlphanum || c = '_' || c = '-'

/-- Whether the optional group `(?:[\w\-]+@)?` can consume a `user@` part
of `s`: a non-empty maximal run of word characters followed by `@`.
(Backtracking into a shorter run is impossible: the character after a
shorter run is a word character, not `@`.) -/
def userAt (s : Str) : Bool :=
  !(s.takeWhile wordChar).isEmpty && ((s.dropWhile wordChar).head? == some '@')

/-- The text after the `user@` part consumed by `(?:[\w\-]+@)?`, when the
group can match. -/
def userTail (s : Str) : Option Str :=
  let run := s.takeWhile wordChar
  if run.isEmpty then none
  else match s.drop run.length with
       | c :: t => if c = '@' then some t else none
       | [] => none

/-- Remainders accepted by `(?:\.git)?$`: end of string, a trailing
newline (Python `$`), optionally preceded by a consumed `.git`. -/
def tailOk (v : Str) : Bool :=
  v = [] || v = ['\n'] || v = dotGit || v = dotGit ++ ['\n']

/-- The lazy group `(.+?)` followed by `(?:\.git)?$`: consume characters
one at a time (never a newline), returning the shortest non-empty prefix
whose remainder is accepted by `tailOk`.  `acc` holds the consumed
characters in reverse. -/
def reTailGo : Str → Str → Option Str
  | _, [] => none
  | acc, c :: rest =>
    if c = '\n' then none
    else if tailOk rest then some (c :: acc).reverse
    else reTailGo (c :: acc) rest

/-- Group 2 of the shorthand regex: match `(.+?)(?:\.git)?$` against `u`. -/
def reTail (u : Str) : Option Str := reTailGo [] u

/-- `([^:]+):(.+?)(?:\.git)?$` against `t`: group 1 is the (non-empty) run
before the first `:` (no shorter run can be followed by the literal `:`),
group 2 comes from `reTail` on the rest. -/
def reInner (t : Str) : Option (Str × Str) :=
  let A := t.takeWhile (· ≠ ':')
  match t.drop A.length with
  | c :: u =>
    if c = ':' then (if A.isEmpty then none else (reTail u).map (fun q => (A, q)))
    else none
  | [] => none

/-- `re.match` of the full shorthand pattern
`^(?:[\w\-]+@)?([^:]+):(.+?)(?:\.git)?$` (core.py line 97): try with the
`user@` part consumed; on failure the engine retries with the optional
group matching the empty string. -/
def sshShorthand (s : Str) : Option (Str × Str) :=
  match userTail s with
  | some s2 =>
    match reInner s2 with
    | some r => some r
    | none => reInner s
  | none => reInner s

/-- The code reached when the `ssh://` branch does not return
(core.py lines 85-107): the `http(s)://` branch, then the shorthand
regex, then `return None`. -/
def parse_rest (url : Str) : PRes :=
  if httpPre7.isPrefixOf url then
    match httpParse url 7 with
    | Except.error _ => PRes.raised
    | Except.ok (h, p) => PRes.ok h p
  else if httpsPre8.isPrefixOf url then
    match httpParse url 8 with
    | Except.error _ => PRes.raised
    | Except.ok (h, p) => PRes.ok h p
  else
    match sshShorthand url with
    | some (h, p) => PRes.ok h (rstripSlash (lstripSlash p))
    | none => PRes.fail

/-- `parse_git_url` (core.py lines 55-107). -/
def parse_git_url (url : Str) : PRes :=
  if url.isEmpty then PRes.fail
  else
    match (if sshPre.isPrefixOf url then parseSsh url else none) with
    | some (h, p) => PRes.ok h p
    | none => parse_rest url

/-- The mismatched-bracket condition under which `urlsplit` raises
`ValueError("Invalid IPv6 URL")`. -/
def bracketBad (netloc : Str) : Bool := netloc.contains '[' != netloc.contains ']'

/-- The netloc `urlsplit` extracts from a URL whose scheme marker has
`schemeLen` characters. -/
def netlocOf (url : Str) (schemeLen : Nat) : Str :=
  ((removeCtl url).drop schemeLen).takeWhile (fun c => !netDelim c)

/-- The path component `urlparse` extracts (after fragment, query and
params splitting) from a URL whose scheme marker has `schemeLen`
characters. -/
def httpPathOf (url : Str) (schemeLen : Nat) : Str :=
  splitparamsPath (beforeFirst '?' (beforeFirst '#'
    (((removeCtl url).drop schemeLen).dropWhile (fun c => !netDelim c))))

/-- Python `f"{base_target}-copy{counter}"` (core.py line 133). -/
def copyName (base : String) (counter : Nat) : String :=
  base ++ "-copy" ++ Nat.repr counter

/-- The `while True` probing loop of `get_unique_target_path`
(core.py lines 131-136), with fuel; `none` means the fuel ran out. -/
def get_unique_go (ex : String → Bool) (base : String) : Nat → Nat → Option String
  | _, 0 => none
  | counter, fuel + 1 =>
    if ex (copyName base counter) then get_unique_go ex base (counter + 1) fuel
    else some (copyName base counter)

/-- `get_unique_target_path` (core.py lines 124-136) with the existence
check injected as a predicate, per the spec's allocator contract. -/
def get_unique_target_path (ex : String → Bool) (base : String) (fuel : Nat) :
    Option String :=
  if ex base then get_unique_go ex base 1 fuel else some base

/-- The candidate sequence `desired, desired-copy1, desired-copy2, …`
probed by the allocator. -/
def candidate (base : String) : Nat → String
  | 0 => base
  | n + 1 => copyName base (n + 1)

/-- Decimal value of a digit-character list; left inverse of `Nat.repr`,
used to show distinct counters give distinct candidate paths. -/
def reprVal (l : List Char) : Nat := l.foldl (fun a c => a * 10 + (c.toNat - 48)) 0

/-- Concrete existence predicate `exists = {"/x/repo"}` from the spec's
allocator example. -/
def exRepo : String → Bool := fun s => s == "/x/repo"

/-- Concrete existence predicate `exists = {"/x/repo", "/x/repo-copy1"}`
from the spec's allocator example. -/
def exRepo2 : String → Bool := fun s => s == "/x/repo" || s == "/x/repo-copy1"

-- Sanity checks of the model against the spec's test vectors.
example : parse_git_url (str "") = PRes.fail := by decide
example : parse_git_url (str "git@github.com:user/repo.git") =
    PRes.ok (str "github.com") (str "user/repo") := by decide
example : parse_git_url (str "https://github.com/user/repo.git") =
    PRes.ok (str "github.com") (str "user/repo") := by decide
example : parse_git_url (str "ssh://git@host.example:2222/path/to/repo.git") =
    PRes.ok (str "host.example") (str "path/to/repo") := by decide
example : parse_git_url (str "https://user@gitlab.com/group/sub/repo") =
    PRes.ok (str "gitlab.com") (str "group/sub/repo") := by decide
example : get_unique_target_path exRepo "/x/repo" 9 = some "/x/repo-copy1" := by decide
example : get_unique_target_path exRepo "/y/repo" 9 = some "/y/repo" := by decide

/-! ### Generic list lemmas used throughout -/

theorem takeWhile_append_all {p : Char → Bool} : ∀ {l1 : Str} (l2 : Str),
    (∀ c ∈ l1, p c = true) → (l1 ++ l2).takeWhile p = l1 ++ l2.takeWhile p := by
  intro l1
  induction l1 with
  | nil => intro l2 _; rfl
  | cons a l ih =>
    intro l2 h
    have ha : p a = true := h a (List.mem_cons_self a l)
    simp only [List.cons_append, List.takeWhile_cons, ha, if_true]
    rw [ih l2 (fun c hc => h c (List.mem_cons_of_mem a hc))]

theorem dropWhile_append_all {p : Char → Bool} : ∀ {l1 : Str} (l2 : Str),
    (∀ c ∈ l1, p c = true) → (l1 ++ l2).dropWhile p = l2.dropWhile p := by
  intro l1
  induction l1 with
  | nil => intro l2 _; rfl
  | cons a l ih =>
    intro l2 h
    have ha : p a = true := h a (List.mem_cons_self a l)
    simp only [List.cons_append, List.dropWhile_cons, ha, if_true]
    exact ih l2 (fun c hc => h c (List.mem_cons_of_mem a hc))

theorem head?_dropWhile {p : Char → Bool} : ∀ {l : Str} {c : Char},
    (l.dropWhile p).head? = some c → p c = false := by
  intro l
  induction l with
  | nil => intro c h; simp [List.dropWhile] at h
  | cons a l ih =>
    intro c h
    by_cases ha : p a = true
    · exact ih (by simpa [List.dropWhile_cons, ha] using h)
    · have ha2 : p a = false := by revert ha; cases p a <;> simp
      simp only [List.dropWhile_cons, ha2, Bool.false_eq_true, if_false, List.head?_cons,
        Option.some.injEq] at h
      rw [← h]; exact ha2

theorem rstripSlash_getLast41 (l : Str) : (rstripSlash l).getLast? ≠ some '/' := by
  intro h
  unfold rstripSlash at h
  rw [List.getLast?_reverse] at h
  have := head?_dropWhile h
  simp at this

theorem rstripSlash_eq_self {l : Str} (h : l.getLast? ≠ some '/') : rstripSlash l = l := by
  unfold rstripSlash
  rw [← List.head?_reverse] at h
  cases hr : l.reverse with
  | nil =>
    have : l = [] := by simpa using congrArg List.reverse hr
    simp [this]
  | cons a r =>
    rw [hr] at h
    simp only [List.head?_cons, ne_eq, Option.some.injEq] at h
    rw [List.dropWhile_cons]
    simp only [h, decide_False, Bool.false_eq_true, if_false]
    simpa using congrArg List.reverse hr.symm

theorem lstripSlash_eq_self {l : Str} (h : l.head? ≠ some '/') : lstripSlash l = l := by
  unfold lstripSlash
  cases l with
  | nil => rfl
  | cons a r =>
    simp only [List.head?_cons, ne_eq, Option.some.injEq] at h
    rw [List.dropWhile_cons]
    simp [h]

/-! ### The `(.+?)(?:\.git)?$` matcher -/

theorem reTailGo_some : ∀ (u acc : Str), u ≠ [] → (∀ c ∈ u, c ≠ '\n') →
    ∃ q, reTailGo acc u = some q := by
  intro u
  induction u with
  | nil => intro acc h; exact absurd rfl h
  | cons c rest ih =>
    intro acc _ hnl
    have hc : (c = '\n') = False := by
      simp only [eq_iff_iff, iff_false]
      exact hnl c (List.mem_cons_self c rest)
    rw [reTailGo]
    simp only [hc, if_false]
    by_cases ht : tailOk rest = true
    · simp only [ht, if_true]; exact ⟨_, rfl⟩
    · have ht2 : tailOk rest = false := by revert ht; cases tailOk rest <;> simp
      simp only [ht2, Bool.false_eq_true, if_false]
      rcases rest with _ | ⟨d, rest2⟩
      · simp [tailOk] at ht2
      · exact ih (c :: acc) (by simp) (fun x hx => hnl x (List.mem_cons_of_mem c hx))

theorem tailOk_cons_append_dotGit (x : Char) (l : Str) :
    tailOk (x :: l ++ dotGit) = false := by
  simp only [tailOk, Bool.or_eq_false_iff, decide_eq_false_iff_not]
  refine ⟨⟨⟨?_, ?_⟩, ?_⟩, ?_⟩ <;> intro h
  · simp at h
  · have := congrArg List.length h
    simp [dotGit] at this
  · have := congrArg List.length h
    simp [dotGit] at this
  · have hn := congrArg List.length h
    simp only [List.cons_append, List.length_cons, List.length_append, dotGit,
      List.length_nil] at hn
    have hl : l = [] := List.length_eq_zero.mp (by omega)
    subst hl
    simp [dotGit] at h

theorem reTailGo_append_dotGit : ∀ (p acc : Str), p ≠ [] → (∀ c ∈ p, c ≠ '\n') →
    reTailGo acc (p ++ dotGit) = some (acc.reverse ++ p) := by
  intro p
  induction p with
  | nil => intro acc h; exact absurd rfl h
  | cons c rest ih =>
    intro acc _ hnl
    have hc : (c = '\n') = False := by
      simp only [eq_iff_iff, iff_false]
      exact hnl c (List.mem_cons_self c rest)
    rw [List.cons_append, reTailGo]
    simp only [hc, if_false]
    rcases rest with _ | ⟨d, rest2⟩
    · simp only [List.nil_append, show tailOk dotGit = true from rfl, if_true]
      simp
    · rw [tailOk_cons_append_dotGit]
      simp only [Bool.false_eq_true, if_false]
      rw [ih (c :: acc) (by simp) (fun x hx => hnl x (List.mem_cons_of_mem c hx))]
      simp

theorem reTail_append_dotGit {p : Str} (h : p ≠ []) (hnl : ∀ c ∈ p, c ≠ '\n') :
    reTail (p ++ dotGit) = some p := by
  unfold reTail
  rw [reTailGo_append_dotGit p [] h hnl]
  rfl

/-! ### Decimal numerals: `Nat.repr` is injective and never empty -/

theorem toDigitsCore_acc : ∀ (fuel n : Nat) (ds : List Char),
    Nat.toDigitsCore 10 fuel n ds = Nat.toDigitsCore 10 fuel n [] ++ ds := by
  intro fuel
  induction fuel with
  | zero => intro n ds; rfl
  | succ f ih =>
    intro n ds
    simp only [Nat.toDigitsCore]
    by_cases h : n / 10 = 0
    · simp [h]
    · simp only [h, if_false]
      rw [ih (n / 10) (Nat.digitChar (n % 10) :: ds), ih (n / 10) [Nat.digitChar (n % 10)]]
      simp

theorem reprVal_append_digit (l : List Char) (c : Char) :
    reprVal (l ++ [c]) = reprVal l * 10 + (c.toNat - 48) := by
  unfold reprVal
  rw [List.foldl_append]
  rfl

theorem digitChar_toNat : ∀ m, m < 10 → (Nat.digitChar m).toNat - 48 = m := by decide

theorem reprVal_toDigitsCore : ∀ (fuel n : Nat), n < 10 ^ fuel →
    reprVal (Nat.toDigitsCore 10 fuel n []) = n := by
  intro fuel
  induction fuel with
  | zero =>
    intro n h
    have : n = 0 := by simpa using h
    subst this
    rfl
  | succ f ih =>
    intro n h
    simp only [Nat.toDigitsCore]
    by_cases h0 : n / 10 = 0
    · have hn : n < 10 := by omega
      simp only [h0, if_true]
      have : reprVal [Nat.digitChar (n % 10)] = (Nat.digitChar (n % 10)).toNat - 48 := by
        unfold reprVal; simp
      rw [this, digitChar_toNat (n % 10) (Nat.mod_lt n (by norm_num))]
      omega
    · simp only [h0, if_false]
      rw [toDigitsCore_acc, reprVal_append_digit]
      have hdiv : n / 10 < 10 ^ f := by
        have hp : (10 : Nat) ^ (f + 1) = 10 ^ f * 10 := by ring
        have := Nat.div_lt_of_lt_mul (by rw [← hp]; exact h)
        omega
      rw [ih (n / 10) hdiv, digitChar_toNat (n % 10) (Nat.mod_lt n (by norm_num))]
      omega

theorem reprVal_natRepr (n : Nat) : reprVal (Nat.repr n).data = n := by
  have hlt : n < 10 ^ (n + 1) := by
    have h1 : n < 2 ^ n := Nat.lt_two_pow n
    have h2 : (2 : Nat) ^ n ≤ 10 ^ n := Nat.pow_le_pow_left (by norm_num) n
    have h3 : (10 : Nat) ^ n ≤ 10 ^ (n + 1) := Nat.pow_le_pow_right (by norm_num) (Nat.le_succ n)
    omega
  exact reprVal_toDigitsCore (n + 1) n hlt

theorem natRepr_injective : Function.Injective Nat.repr := by
  intro a b h
  have := congrArg (fun s => reprVal s.data) h
  simpa [reprVal_natRepr] using this

theorem toDigitsCore_length_pos (fuel n : Nat) :
    1 ≤ (Nat.toDigitsCore 10 (fuel + 1) n []).length := by
  simp only [Nat.toDigitsCore]
  by_cases h : n / 10 = 0
  · simp [h]
  · simp only [h, if_false]
    rw [toDigitsCore_acc]
    simp

theorem natRepr_length_pos (n : Nat) : 1 ≤ (Nat.repr n).length :=
  toDigitsCore_length_pos n n

/-! ### The candidate sequence is injective, so a finite set never
exhausts it -/

theorem candidate_injective (base : String) : Function.Injective (candidate base) := by
  intro i j h
  have hlen : ∀ k : Nat, (candidate base (k + 1)).length = base.length + 5 + (Nat.repr (k + 1)).length := by
    intro k
    show ((base ++ "-copy") ++ Nat.repr (k + 1)).length = _
    rw [String.length_append, String.length_append]
    rfl
  match i, j with
  | 0, 0 => rfl
  | 0, j + 1 =>
    exfalso
    have h1 := congrArg String.length h
    rw [hlen j] at h1
    have h2 := natRepr_length_pos (j + 1)
    simp only [candidate] at h1
    omega
  | i + 1, 0 =>
    exfalso
    have h1 := congrArg String.length h
    rw [hlen i] at h1
    have h2 := natRepr_length_pos (i + 1)
    simp only [candidate] at h1
    omega
  | i + 1, j + 1 =>
    have hd2 : ((base ++ "-copy") ++ Nat.repr (i + 1)).data =
        ((base ++ "-copy") ++ Nat.repr (j + 1)).data := congrArg String.data h
    rw [String.data_append, String.data_append] at hd2
    have hr : (Nat.repr (i + 1)).data = (Nat.repr (j + 1)).data := List.append_cancel_left hd2
    have h3 : Nat.repr (i + 1) = Nat.repr (j + 1) := by
      cases hx : Nat.repr (i + 1) with
      | mk d1 =>
        cases hy : Nat.repr (j + 1) with
        | mk d2 =>
          rw [hx, hy] at hr
          exact congrArg String.mk (by simpa using hr)
    have h4 := natRepr_injective h3
    omega

theorem exists_free_candidate (l : List String) (base : String) :
    ∃ n, candidate base n ∉ l := by
  by_contra hc
  push_neg at hc
  have hsub : (Finset.range (l.length + 1)).image (candidate base) ⊆ l.toFinset := by
    intro x hx
    rw [Finset.mem_image] at hx
    obtain ⟨n, _, rfl⟩ := hx
    exact List.mem_toFinset.mpr (hc n)
  have h1 : l.length + 1 ≤ l.toFinset.card := by
    have := Finset.card_le_card hsub
    rwa [Finset.card_image_of_injective _ (candidate_injective base), Finset.card_range] at this
  have h2 := l.toFinset_card_le
  omega

/-! ### Allocator loop lemmas -/

theorem get_unique_go_spec (ex : String → Bool) (base : String) :
    ∀ (fuel counter : Nat) (r : String), get_unique_go ex base counter fuel = some r →
      ∃ N, counter ≤ N ∧ r = copyName base N ∧ ex r = false ∧
        ∀ m, counter ≤ m → m < N → ex (copyName base m) = true := by
  intro fuel
  induction fuel with
  | zero => intro counter r h; simp [get_unique_go] at h
  | succ f ih =>
    intro counter r h
    rw [get_unique_go] at h
    by_cases hex : ex (copyName base counter) = true
    · rw [if_pos hex] at h
      obtain ⟨N, hc, hr, hfree, hall⟩ := ih (counter + 1) r h
      refine ⟨N, by omega, hr, hfree, ?_⟩
      intro m hm1 hm2
      by_cases hm : m = counter
      · rw [hm]; exact hex
      · exact hall m (by omega) hm2
    · have hex2 : ex (copyName base counter) = false := by
        revert hex; cases ex (copyName base counter) <;> simp
      rw [if_neg (by simp [hex2])] at h
      refine ⟨counter, le_refl counter, ?_, ?_, ?_⟩
      · exact (Option.some.injEq _ _).mp h.symm
      · rw [← (Option.some.injEq _ _).mp h.symm] at hex2
        exact hex2
      · intro m hm1 hm2; omega

theorem get_unique_go_reaches (ex : String → Bool) (base : String) :
    ∀ (k counter : Nat), ex (copyName base (counter + k)) = false →
      ∃ r, get_unique_go ex base counter (k + 1) = some r := by
  intro k
  induction k with
  | zero =>
    intro counter hfree
    have hfree2 : ex (copyName base counter) = false := by simpa using hfree
    rw [get_unique_go]
    rw [if_neg (by simp [hfree2])]
    exact ⟨_, rfl⟩
  | succ k ih =>
    intro counter hfree
    rw [get_unique_go]
    by_cases hex : ex (copyName base counter) = true
    · rw [if_pos hex]
      exact ih (counter + 1) (by rw [show counter + 1 + k = counter + (k + 1) by omega]; exact hfree)
    · rw [if_neg hex]
      exact ⟨_, rfl⟩

/-- C8: the allocator is first-fit over the candidate sequence: an
unoccupied `desired` is returned unchanged, otherwise the result is
`desired ++ "-copy" ++ N` for the least `N ≥ 1` whose candidate is
unoccupied, and the returned path never exists. -/
theorem allocator_first_fit (ex : String → Bool) (base : String) (fuel : Nat) (r : String)
    (h : get_unique_target_path ex base fuel = some r) :
    (ex base = false → r = base) ∧
    (ex base = true → ∃ N, 1 ≤ N ∧ r = base ++ "-copy" ++ Nat.repr N ∧
      ∀ m, 1 ≤ m → m < N → ex (base ++ "-copy" ++ Nat.repr m) = true) ∧
    ex r = false := by
  unfold get_unique_target_path at h
  by_cases hb : ex base = true
  · rw [if_pos hb] at h
    obtain ⟨N, hc, hr, hfree, hall⟩ := get_unique_go_spec ex base fuel 1 r h
    refine ⟨?_, ?_, hfree⟩
    · intro hfalse; rw [hb] at hfalse; cases hfalse
    · intro _; exact ⟨N, hc, hr, hall⟩
  · have hb2 : ex base = false := by revert hb; cases ex base <;> simp
    rw [if_neg hb] at h
    have hr : r = base := (Option.some.injEq _ _).mp h.symm
    refine ⟨fun _ => hr, ?_, ?_⟩
    · intro htrue; rw [hb2] at htrue; cases htrue
    · rw [hr]; exact hb2

/-- Witness for C8 on the spec's own examples: with
`exists = {"/x/repo"}` the loop yields `/x/repo-copy1`, with
`exists = {"/x/repo", "/x/repo-copy1"}` it yields `/x/repo-copy2`, and an
unoccupied path is returned unchanged; the first-fit theorem applies to
the first run. -/
theorem allocator_first_fit_witness :
    (get_unique_target_path exRepo "/x/repo" 9 = some "/x/repo-copy1" ∧
     get_unique_target_path exRepo2 "/x/repo" 9 = some "/x/repo-copy2" ∧
     get_unique_target_path exRepo "/y/other" 9 = some "/y/other") ∧
    ((exRepo "/x/repo" = false → "/x/repo-copy1" = "/x/repo") ∧
     (exRepo "/x/repo" = true → ∃ N, 1 ≤ N ∧
        "/x/repo-copy1" = "/x/repo" ++ "-copy" ++ Nat.repr N ∧
        ∀ m, 1 ≤ m → m < N → exRepo ("/x/repo" ++ "-copy" ++ Nat.repr m) = true) ∧
     exRepo "/x/repo-copy1" = false) :=
  ⟨⟨by decide, by decide, by decide⟩,
   allocator_first_fit exRepo "/x/repo" 9 "/x/repo-copy1" (by decide)⟩

/-- C9: the allocator terminates whenever some candidate in
`desired, desired-copy1, desired-copy2, …` is unoccupied (some fuel makes
the loop return), and in particular whenever the set of existing paths is
finite (here: membership in any list of paths). -/
theorem allocator_terminates :
    (∀ (ex : String → Bool) (base : String), (∃ n, ex (candidate base n) = false) →
      ∃ fuel r, get_unique_target_path ex base fuel = some r) ∧
    (∀ (l : List String) (base : String),
      ∃ fuel r, get_unique_target_path (fun s => decide (s ∈ l)) base fuel = some r) := by
  have main : ∀ (ex : String → Bool) (base : String),
      (∃ n, ex (candidate base n) = false) →
      ∃ fuel r, get_unique_target_path ex base fuel = some r := by
    intro ex base ⟨n, hn⟩
    by_cases hb : ex base = true
    · match n with
      | 0 =>
        rw [show candidate base 0 = base from rfl, hb] at hn
        cases hn
      | m + 1 =>
        have hfree : ex (copyName base (1 + m)) = false := by
          rw [Nat.add_comm 1 m]; exact hn
        obtain ⟨r, hr⟩ := get_unique_go_reaches ex base m 1 hfree
        refine ⟨m + 1, r, ?_⟩
        unfold get_unique_target_path
        rw [if_pos hb]
        exact hr
    · refine ⟨0, base, ?_⟩
      unfold get_unique_target_path
      rw [if_neg hb]
  refine ⟨main, fun l base => ?_⟩
  obtain ⟨n, hn⟩ := exists_free_candidate l base
  exact main _ base ⟨n, by simp [hn]⟩

/-- Witness for C9: the hypothesis holds for `exists = {"/x/repo"}` at
candidate index 1, and the theorem then yields a terminating run. -/
theorem allocator_terminates_witness :
    exRepo (candidate "/x/repo" 1) = false ∧
    ∃ fuel r, get_unique_target_path exRepo "/x/repo" fuel = some r :=
  ⟨by decide, allocator_terminates.1 exRepo "/x/repo" ⟨1, by decide⟩⟩

/-! ### Concrete parser results -/

/-- C7: for an `https` URL with an embedded username and a multi-segment
path without a `.git` suffix, the username is stripped and the path is
preserved verbatim (also checked on a four-segment path). -/
theorem https_username_stripped_path_verbatim :
    parse_git_url (str "https://user@gitlab.com/group/sub/repo") =
      PRes.ok (str "gitlab.com") (str "group/sub/repo") ∧
    parse_git_url (str "https://user@gitlab.com/a/b/c/d") =
      PRes.ok (str "gitlab.com") (str "a/b/c/d") := by
  constructor <;> decide

/-- Counterexample to C1: `ssh://host-with-no-path` does not yield
`ParseFailure`; after the `ssh://` branch falls through, the shorthand
regex matches the original string at the `ssh:` colon. -/
theorem ssh_no_slash_counterexample :
    parse_git_url (str "ssh://host-with-no-path") =
      PRes.ok (str "ssh") (str "host-with-no-path") ∧
    parse_git_url (str "ssh://host-with-no-path") ≠ PRes.fail := by
  constructor <;> decide

/-- Counterexample to C2: for an `https` URL the returned host is the
lowercased hostname, which for `https://GitHub.com/user/repo` is not a
substring of the input. -/
theorem http_host_lowercased_counterexample :
    parse_git_url (str "https://GitHub.com/user/repo") =
      PRes.ok (str "github.com") (str "user/repo") ∧
    ¬ (str "github.com" <:+: str "https://GitHub.com/user/repo") := by
  constructor <;> decide

/-- Counterexample to C3: `ssh:////x.git/` parses to an empty host with a
path that keeps its leading `/` and its `.git` suffix, and `a/b:c`
parses to a host containing `/`. -/
theorem invariants_counterexample :
    parse_git_url (str "ssh:////x.git/") = PRes.ok [] (str "/x.git") ∧
    ([] : Str) = [] ∧
    (str "/x.git").head? = some '/' ∧
    dotGit.isSuffixOf (str "/x.git") = true ∧
    parse_git_url (str "a/b:c") = PRes.ok (str "a/b") (str "c") ∧
    (str "a/b").contains '/' = true := by
  refine ⟨?_, ?_, ?_, ?_, ?_, ?_⟩ <;> decide

/-- Counterexample to C4: `parse_git_url` is not exception-free; on
`http://[` the modelled `urlparse` raises `ValueError("Invalid IPv6
URL")`, which the function does not catch. -/
theorem parse_raises_counterexample :
    parse_git_url (str "http://[") = PRes.raised := by decide

/-- Counterexample to C5: the shorthand parse of `u@v@h:x` yields host
`v@h` and path `x`, but re-normalizing the reconstruction `v@h:x.git`
yields host `h`: the regex strips a second `user@` layer, so the
round-trip fails. -/
theorem round_trip_counterexample :
    parse_git_url (str "u@v@h:x") = PRes.ok (str "v@h") (str "x") ∧
    parse_git_url (str "v@h" ++ ':' :: (str "x" ++ dotGit)) = PRes.ok (str "h") (str "x") ∧
    PRes.ok (str "h") (str "x") ≠ PRes.ok (str "v@h") (str "x") := by
  refine ⟨?_, ?_, ?_⟩ <;> decide

/-- Counterexample to C10: `https://[` has an empty URL path component but
does not succeed with an empty path; the bracket check in `urlparse`
raises instead. -/
theorem http_empty_path_counterexample :
    httpPathOf (str "https://[") 8 = [] ∧
    parse_git_url (str "https://[") = PRes.raised := by
  constructor <;> decide

/-! ### Branch shape lemmas for `parse_git_url` -/

theorem parseSsh_ok_shape (url h p : Str) (hp : parseSsh url = some (h, p)) :
    h = beforeFirst ':' (beforeFirst '/' (sshRest2 url)) ∧
    p = rstripSlash (stripDotGit (afterFirst '/' (sshRest2 url))) := by
  simp only [parseSsh] at hp
  rw [show (if (url.drop 6).contains '@' then afterFirst '@' (url.drop 6) else url.drop 6) =
    sshRest2 url from rfl] at hp
  split at hp
  · simp only [Option.some.injEq, Prod.mk.injEq] at hp
    exact ⟨hp.1.symm, hp.2.symm⟩
  · cases hp

theorem httpParse_ok_shape (url : Str) (k : Nat) (h p : Str)
    (hp : httpParse url k = Except.ok (h, p)) :
    h = (pyHostname (netlocOf url k)).getD (netlocOf url k) ∧
    p = rstripSlash (stripDotGit (lstripSlash (httpPathOf url k))) := by
  simp only [httpParse] at hp
  split at hp
  · cases hp
  · simp only [Except.ok.injEq, Prod.mk.injEq] at hp
    refine ⟨hp.1.symm, ?_⟩
    rw [← hp.2]
    rfl

theorem sshShorthand_ok_shape (s h q : Str) (hp : sshShorthand s = some (h, q)) :
    (∃ t, userTail s = some t ∧ reInner t = some (h, q)) ∨ reInner s = some (h, q) := by
  unfold sshShorthand at hp
  split at hp
  · rename_i t hut
    split at hp
    · rename_i pr hre
      left
      cases hp
      exact ⟨t, hut, hre⟩
    · right; exact hp
  · right; exact hp

theorem reInner_host (t h q : Str) (hp : reInner t = some (h, q)) :
    h = t.takeWhile (· ≠ ':') := by
  simp only [reInner] at hp
  split at hp
  · rename_i c u heq
    by_cases hc : c = ':'
    · rw [if_pos hc] at hp
      by_cases he : (t.takeWhile (fun x => decide (x ≠ ':'))).isEmpty = true
      · rw [if_pos he] at hp
        cases hp
      · rw [if_neg he] at hp
        rw [Option.map_eq_some'] at hp
        obtain ⟨q0, _, hpair⟩ := hp
        exact (Prod.mk.injEq _ _ _ _ ▸ hpair).1.symm
    · rw [if_neg hc] at hp
      cases hp
  · cases hp

theorem userTail_suffix (s t : Str) (hp : userTail s = some t) : t <:+ s := by
  simp only [userTail] at hp
  split at hp
  · cases hp
  · split at hp
    · rename_i c t2 heq
      by_cases hc : c = '@'
      · rw [if_pos hc] at hp
        have ht : t2 = t := by
          rw [Option.some.injEq] at hp
          exact hp
        subst ht
        subst hc
        have h1 : t2 <:+ '@' :: t2 := ⟨['@'], rfl⟩
        rw [← heq] at h1
        exact h1.trans (List.drop_suffix _ s)
      · rw [if_neg hc] at hp
        cases hp
    · cases hp

theorem afterFirst_suffix (c : Char) (s : Str) : afterFirst c s <:+ s :=
  (List.drop_suffix 1 _).trans (List.dropWhile_suffix _)

theorem sshRest2_suffix (url : Str) : sshRest2 url <:+ url := by
  unfold sshRest2
  split
  · exact (afterFirst_suffix '@' _).trans (List.drop_suffix 6 url)
  · exact List.drop_suffix 6 url

theorem parse_rest_ok_cases (url h p : Str) (hok : parse_rest url = PRes.ok h p) :
    (httpPre7.isPrefixOf url = true ∧ httpParse url 7 = Except.ok (h, p)) ∨
    (httpsPre8.isPrefixOf url = true ∧ httpParse url 8 = Except.ok (h, p)) ∨
    (∃ p0, sshShorthand url = some (h, p0) ∧ p = rstripSlash (lstripSlash p0)) := by
  unfold parse_rest at hok
  by_cases h7 : httpPre7.isPrefixOf url = true
  · rw [if_pos h7] at hok
    cases hh : httpParse url 7 with
    | error e =>
      rw [hh] at hok
      cases hok
    | ok pr =>
      obtain ⟨h2, p2⟩ := pr
      rw [hh] at hok
      have hok2 : PRes.ok h2 p2 = PRes.ok h p := hok
      rw [PRes.ok.injEq] at hok2
      obtain ⟨rfl, rfl⟩ := hok2
      exact Or.inl ⟨h7, rfl⟩
  · rw [if_neg h7] at hok
    by_cases h8 : httpsPre8.isPrefixOf url = true
    · rw [if_pos h8] at hok
      cases hh : httpParse url 8 with
      | error e =>
        rw [hh] at hok
        cases hok
      | ok pr =>
        obtain ⟨h2, p2⟩ := pr
        rw [hh] at hok
        have hok2 : PRes.ok h2 p2 = PRes.ok h p := hok
        rw [PRes.ok.injEq] at hok2
        obtain ⟨rfl, rfl⟩ := hok2
        exact Or.inr (Or.inl ⟨h8, rfl⟩)
    · rw [if_neg h8] at hok
      cases hsh : sshShorthand url with
      | none =>
        rw [hsh] at hok
        cases hok
      | some pr =>
        obtain ⟨h2, p2⟩ := pr
        rw [hsh] at hok
        have hok2 : PRes.ok h2 (rstripSlash (lstripSlash p2)) = PRes.ok h p := hok
        rw [PRes.ok.injEq] at hok2
        obtain ⟨rfl, hp2⟩ := hok2
        exact Or.inr (Or.inr ⟨p2, rfl, hp2.symm⟩)

theorem parse_ok_cases (url h p : Str) (hok : parse_git_url url = PRes.ok h p) :
    (sshPre.isPrefixOf url = true ∧ parseSsh url = some (h, p)) ∨
    (httpPre7.isPrefixOf url = true ∧ httpParse url 7 = Except.ok (h, p)) ∨
    (httpsPre8.isPrefixOf url = true ∧ httpParse url 8 = Except.ok (h, p)) ∨
    (∃ p0, sshShorthand url = some (h, p0) ∧ p = rstripSlash (lstripSlash p0)) := by
  unfold parse_git_url at hok
  by_cases hemp : url.isEmpty = true
  · rw [if_pos hemp] at hok
    cases hok
  · rw [if_neg hemp] at hok
    by_cases hpre : sshPre.isPrefixOf url = true
    · rw [if_pos hpre] at hok
      cases hssh : parseSsh url with
      | some pr =>
        obtain ⟨h1, p1⟩ := pr
        rw [hssh] at hok
        have hok2 : PRes.ok h1 p1 = PRes.ok h p := hok
        rw [PRes.ok.injEq] at hok2
        obtain ⟨rfl, rfl⟩ := hok2
        exact Or.inl ⟨hpre, rfl⟩
      | none =>
        rw [hssh] at hok
        have hok2 : parse_rest url = PRes.ok h p := hok
        exact Or.inr (parse_rest_ok_cases url h p hok2)
    · rw [if_neg hpre] at hok
      have hok2 : parse_rest url = PRes.ok h p := hok
      exact Or.inr (parse_rest_ok_cases url h p hok2)

/-- C3 amended: of the claimed `ParsedLocation` invariants, the one that
actually holds for every successful parse is that the path has no
trailing `/` (every branch ends in `rstrip("/")`); the counterexamples
show the host can be empty or contain `/`, and the path can keep a
leading `/` or a `.git` suffix. -/
theorem parsed_path_no_trailing_slash (url h p : Str)
    (hok : parse_git_url url = PRes.ok h p) : p.getLast? ≠ some '/' := by
  rcases parse_ok_cases url h p hok with ⟨_, hs⟩ | ⟨_, hh⟩ | ⟨_, hh⟩ | ⟨p0, _, hp⟩
  · obtain ⟨_, hp⟩ := parseSsh_ok_shape url h p hs
    rw [hp]
    exact rstripSlash_getLast41 _
  · obtain ⟨_, hp⟩ := httpParse_ok_shape url 7 h p hh
    rw [hp]
    exact rstripSlash_getLast41 _
  · obtain ⟨_, hp⟩ := httpParse_ok_shape url 8 h p hh
    rw [hp]
    exact rstripSlash_getLast41 _
  · rw [hp]
    exact rstripSlash_getLast41 _

/-- Witness for C3 (amended) at a concrete successful parse. -/
theorem parsed_path_no_trailing_slash_witness :
    parse_git_url (str "https://github.com/user/repo.git") =
      PRes.ok (str "github.com") (str "user/repo") ∧
    (str "user/repo").getLast? ≠ some '/' :=
  ⟨by decide, parsed_path_no_trailing_slash (str "https://github.com/user/repo.git")
    (str "github.com") (str "user/repo") (by decide)⟩

/-- C2 amended: for every input *not* handled by the `http(s)` rule, a
successful parse returns a host that is a contiguous substring of the
input, unchanged; the `http(s)` rule instead lowercases the hostname
(see the counterexample). -/
theorem host_preserved_outside_http (url h p : Str)
    (h7 : httpPre7.isPrefixOf url = false) (h8 : httpsPre8.isPrefixOf url = false)
    (hok : parse_git_url url = PRes.ok h p) : h <:+: url := by
  rcases parse_ok_cases url h p hok with ⟨_, hs⟩ | ⟨hg, _⟩ | ⟨hg, _⟩ | ⟨p0, hsh, _⟩
  · obtain ⟨hh, _⟩ := parseSsh_ok_shape url h p hs
    rw [hh]
    have h1 : beforeFirst ':' (beforeFirst '/' (sshRest2 url)) <+: sshRest2 url :=
      (List.takeWhile_prefix _).trans (List.takeWhile_prefix _)
    exact h1.isInfix.trans (sshRest2_suffix url).isInfix
  · rw [hg] at h7; cases h7
  · rw [hg] at h8; cases h8
  · rcases sshShorthand_ok_shape url h p0 hsh with ⟨t, hut, hin⟩ | hin
    · rw [reInner_host t h p0 hin]
      exact (List.takeWhile_prefix _).isInfix.trans (userTail_suffix url t hut).isInfix
    · rw [reInner_host url h p0 hin]
      exact (List.takeWhile_prefix _).isInfix

/-- Witness for C2 (amended) on the spec's shorthand example. -/
theorem host_preserved_outside_http_witness :
    parse_git_url (str "git@github.com:user/repo.git") =
      PRes.ok (str "github.com") (str "user/repo") ∧
    str "github.com" <:+: str "git@github.com:user/repo.git" :=
  ⟨by decide, host_preserved_outside_http (str "git@github.com:user/repo.git")
    (str "github.com") (str "user/repo") (by decide) (by decide) (by decide)⟩

/-! ### Splitting helpers for structured inputs -/

theorem beforeFirst_split (c : Char) (l1 l2 : Str) (h : c ∉ l1) :
    beforeFirst c (l1 ++ c :: l2) = l1 := by
  unfold beforeFirst
  rw [takeWhile_append_all (c :: l2) (fun x hx => by
    simp only [decide_eq_true_eq]
    intro hc
    exact h (hc ▸ hx))]
  rw [List.takeWhile_cons]
  simp

theorem afterFirst_split (c : Char) (l1 l2 : Str) (h : c ∉ l1) :
    afterFirst c (l1 ++ c :: l2) = l2 := by
  unfold afterFirst
  rw [dropWhile_append_all (c :: l2) (fun x hx => by
    simp only [decide_eq_true_eq]
    intro hc
    exact h (hc ▸ hx))]
  rw [List.dropWhile_cons]
  simp

theorem parse_ssh_step (t : Str) :
    parse_git_url (sshPre ++ t) =
      (match parseSsh (sshPre ++ t) with
        | some (a, b) => PRes.ok a b
        | none => parse_rest (sshPre ++ t)) := by
  unfold parse_git_url
  rw [show (sshPre ++ t).isEmpty = false from rfl]
  rw [show sshPre.isPrefixOf (sshPre ++ t) = true by
    rw [List.isPrefixOf_iff_prefix]; exact List.prefix_append _ _]
  simp

theorem parse_shorthand_step (url : Str) (hemp : url.isEmpty = false)
    (h1 : sshPre.isPrefixOf url = false) (h7 : httpPre7.isPrefixOf url = false)
    (h8 : httpsPre8.isPrefixOf url = false) :
    parse_git_url url =
      (match sshShorthand url with
        | some (a, b) => PRes.ok a (rstripSlash (lstripSlash b))
        | none => PRes.fail) := by
  unfold parse_git_url parse_rest
  rw [hemp, h1, h7, h8]
  simp

theorem parse_http7_step (t : Str) :
    parse_git_url (httpPre7 ++ t) =
      (match httpParse (httpPre7 ++ t) 7 with
        | Except.error _ => PRes.raised
        | Except.ok (a, b) => PRes.ok a b) := by
  unfold parse_git_url parse_rest
  rw [show (httpPre7 ++ t).isEmpty = false from rfl]
  rw [show sshPre.isPrefixOf (httpPre7 ++ t) = false from rfl]
  rw [show httpPre7.isPrefixOf (httpPre7 ++ t) = true by
    rw [List.isPrefixOf_iff_prefix]; exact List.prefix_append _ _]
  simp

theorem parse_http8_step (t : Str) :
    parse_git_url (httpsPre8 ++ t) =
      (match httpParse (httpsPre8 ++ t) 8 with
        | Except.error _ => PRes.raised
        | Except.ok (a, b) => PRes.ok a b) := by
  unfold parse_git_url parse_rest
  rw [show (httpsPre8 ++ t).isEmpty = false from rfl]
  rw [show sshPre.isPrefixOf (httpsPre8 ++ t) = false from rfl]
  rw [show httpPre7.isPrefixOf (httpsPre8 ++ t) = false from rfl]
  rw [show httpsPre8.isPrefixOf (httpsPre8 ++ t) = true by
    rw [List.isPrefixOf_iff_prefix]; exact List.prefix_append _ _]
  simp

/-- C6: for `ssh://` inputs of the shape
`ssh://user@host:port/path`, the `user@` segment and the `:port` suffix
are discarded: the result is the bare host together with the path (with a
trailing `.git` and trailing slashes stripped). -/
theorem ssh_user_port_stripped (user host port path : Str)
    (hu : '@' ∉ user) (hh1 : '/' ∉ host) (hh2 : ':' ∉ host) (hp : '/' ∉ port) :
    parse_git_url (sshPre ++ (user ++ '@' :: (host ++ ':' :: (port ++ '/' :: path)))) =
      PRes.ok host (rstripSlash (stripDotGit path)) := by
  have hssh : parseSsh (sshPre ++ (user ++ '@' :: (host ++ ':' :: (port ++ '/' :: path)))) =
      some (host, rstripSlash (stripDotGit path)) := by
    simp only [parseSsh]
    rw [show (sshPre ++ (user ++ '@' :: (host ++ ':' :: (port ++ '/' :: path)))).drop 6 =
      user ++ '@' :: (host ++ ':' :: (port ++ '/' :: path)) from rfl]
    rw [show (user ++ '@' :: (host ++ ':' :: (port ++ '/' :: path))).contains '@' = true by simp]
    rw [if_pos rfl]
    rw [afterFirst_split '@' user (host ++ ':' :: (port ++ '/' :: path)) hu]
    have hassoc : host ++ ':' :: (port ++ '/' :: path) = (host ++ ':' :: port) ++ '/' :: path := by
      simp
    rw [hassoc]
    rw [show ((host ++ ':' :: port) ++ '/' :: path).contains '/' = true by simp]
    rw [if_pos rfl]
    have hnos : '/' ∉ host ++ ':' :: port := by
      intro hmem
      rcases List.mem_append.mp hmem with hm | hm
      · exact hh1 hm
      · rcases List.mem_cons.mp hm with hm2 | hm2
        · cases hm2
        · exact hp hm2
    rw [beforeFirst_split '/' (host ++ ':' :: port) path hnos]
    rw [afterFirst_split '/' (host ++ ':' :: port) path hnos]
    rw [beforeFirst_split ':' host port hh2]
  rw [parse_ssh_step, hssh]

/-- Witness for C6 on the spec's example URL. -/
theorem ssh_user_port_stripped_witness :
    parse_git_url (str "ssh://git@host.example:2222/path/to/repo.git") =
      PRes.ok (str "host.example") (str "path/to/repo") := by
  have h := ssh_user_port_stripped (str "git") (str "host.example") (str "2222")
    (str "path/to/repo.git") (by decide) (by decide) (by decide) (by decide)
  exact h

/-! ### Computation lemmas for inputs that begin with `ssh://` -/

theorem takeWhile_cons_true {p : Char → Bool} {a : Char} (l : Str) (h : p a = true) :
    (a :: l).takeWhile p = a :: l.takeWhile p := by
  rw [List.takeWhile_cons, h]
  simp

theorem takeWhile_cons_false {p : Char → Bool} {a : Char} (l : Str) (h : p a = false) :
    (a :: l).takeWhile p = [] := by
  rw [List.takeWhile_cons, h]
  simp

theorem takeWhile_wordChar_sshPre (t : Str) :
    (sshPre ++ t).takeWhile wordChar = ['s', 's', 'h'] := by
  rw [show sshPre ++ t = 's' :: 's' :: 'h' :: ':' :: '/' :: '/' :: t from rfl]
  rw [takeWhile_cons_true _ (by decide), takeWhile_cons_true _ (by decide),
    takeWhile_cons_true _ (by decide), takeWhile_cons_false _ (by decide)]

theorem takeWhile_neColon_sshPre (t : Str) :
    (sshPre ++ t).takeWhile (· ≠ ':') = ['s', 's', 'h'] := by
  rw [show sshPre ++ t = 's' :: 's' :: 'h' :: ':' :: '/' :: '/' :: t from rfl]
  rw [takeWhile_cons_true _ (by decide), takeWhile_cons_true _ (by decide),
    takeWhile_cons_true _ (by decide), takeWhile_cons_false _ (by decide)]

theorem userTail_sshPre (t : Str) : userTail (sshPre ++ t) = none := by
  simp only [userTail]
  rw [takeWhile_wordChar_sshPre t]
  rw [show ((['s', 's', 'h'] : Str)).isEmpty = false from rfl]
  rw [show ((['s', 's', 'h'] : Str)).length = 3 from rfl]
  rw [show (sshPre ++ t).drop 3 = ':' :: '/' :: '/' :: t from rfl]
  simp

theorem reInner_sshPre (t : Str) :
    reInner (sshPre ++ t) = (reTail ('/' :: '/' :: t)).map (fun q => (str "ssh", q)) := by
  simp only [reInner]
  rw [takeWhile_neColon_sshPre t]
  rw [show ((['s', 's', 'h'] : Str)).length = 3 from rfl]
  rw [show (sshPre ++ t).drop 3 = ':' :: '/' :: '/' :: t from rfl]
  simp
  rfl

/-- C1 amended: an `ssh://` input whose remainder (after dropping a
`user@` part) has no `/` does *not* yield `ParseFailure`: the branch
falls through and the shorthand regex matches the original string (its
`ssh:` prefix supplies the `:`), so the result is host `"ssh"` with some
path (provided the input has no newline, which the regex's `.` cannot
match). -/
theorem ssh_no_slash_falls_to_shorthand (t : Str) (hnl : ∀ c ∈ t, c ≠ '\n')
    (hns : (if t.contains '@' then afterFirst '@' t else t).contains '/' = false) :
    ∃ p, parse_git_url (sshPre ++ t) = PRes.ok (str "ssh") p := by
  obtain ⟨q, hq⟩ := reTailGo_some ('/' :: '/' :: t) [] (by simp) (by
    intro c hc
    rcases List.mem_cons.mp hc with rfl | hc2
    · decide
    · rcases List.mem_cons.mp hc2 with rfl | hc3
      · decide
      · exact hnl c hc3)
  have hq2 : reTail ('/' :: '/' :: t) = some q := hq
  have hfall : parseSsh (sshPre ++ t) = none := by
    simp only [parseSsh]
    rw [show (sshPre ++ t).drop 6 = t from rfl]
    rw [hns]
    simp
  refine ⟨rstripSlash (lstripSlash q), ?_⟩
  rw [parse_ssh_step, hfall]
  show parse_rest (sshPre ++ t) = PRes.ok (str "ssh") (rstripSlash (lstripSlash q))
  unfold parse_rest
  rw [show httpPre7.isPrefixOf (sshPre ++ t) = false from rfl]
  rw [show httpsPre8.isPrefixOf (sshPre ++ t) = false from rfl]
  simp only [Bool.false_eq_true, if_false]
  have hsh : sshShorthand (sshPre ++ t) = some (str "ssh", q) := by
    simp only [sshShorthand]
    rw [userTail_sshPre t]
    have hre := reInner_sshPre t
    rw [hq2] at hre
    exact hre
  rw [hsh]

/-- Witness for C1 (amended) at the spec's example input. -/
theorem ssh_no_slash_falls_to_shorthand_witness :
    (∀ c ∈ str "host-with-no-path", c ≠ '\n') ∧
    ((if (str "host-with-no-path").contains '@' then afterFirst '@' (str "host-with-no-path")
      else str "host-with-no-path").contains '/' = false) ∧
    ∃ p, parse_git_url (sshPre ++ str "host-with-no-path") = PRes.ok (str "ssh") p :=
  ⟨by decide, by decide,
   ssh_no_slash_falls_to_shorthand (str "host-with-no-path") (by decide) (by decide)⟩

/-! ### The `http(s)` branch: the bracket check and empty paths -/

theorem httpParse_error_bracket (url : Str) (k : Nat) (e : Unit)
    (h : httpParse url k = Except.error e) : bracketBad (netlocOf url k) = true := by
  simp only [httpParse] at h
  by_cases hb : ((((removeCtl url).drop k).takeWhile (fun c => !netDelim c)).contains '[' !=
      (((removeCtl url).drop k).takeWhile (fun c => !netDelim c)).contains ']') = true
  · exact hb
  · rw [if_neg hb] at h
    cases h

theorem bracket_httpParse_error (url : Str) (k : Nat)
    (h : bracketBad (netlocOf url k) = true) : httpParse url k = Except.error () := by
  simp only [httpParse]
  have h2 : ((((removeCtl url).drop k).takeWhile (fun c => !netDelim c)).contains '[' !=
      (((removeCtl url).drop k).takeWhile (fun c => !netDelim c)).contains ']') = true := h
  rw [if_pos h2]

theorem httpParse_all_slash (url : Str) (k : Nat)
    (hb : bracketBad (netlocOf url k) = false)
    (hall : ∀ c ∈ httpPathOf url k, c = '/') :
    httpParse url k =
      Except.ok ((pyHostname (netlocOf url k)).getD (netlocOf url k), []) := by
  simp only [httpParse]
  have hb2 : ((((removeCtl url).drop k).takeWhile (fun c => !netDelim c)).contains '[' !=
      (((removeCtl url).drop k).takeWhile (fun c => !netDelim c)).contains ']') = false := hb
  rw [hb2]
  simp only [Bool.false_eq_true, if_false]
  have hl : lstripSlash (httpPathOf url k) = [] := by
    unfold lstripSlash
    rw [List.dropWhile_eq_nil_iff]
    intro x hx
    simp [hall x hx]
  have hl2 : lstripSlash (splitparamsPath (beforeFirst '?' (beforeFirst '#'
      (((removeCtl url).drop k).dropWhile (fun c => !netDelim c))))) = [] := hl
  rw [hl2]
  rw [show stripDotGit [] = [] from by decide]
  rfl

/-- C10 amended: an `http://` or `https://` input whose URL path
component is empty or all `/` characters parses to `(host, "")` —
*provided* the authority's square brackets are balanced; with unbalanced
brackets `urlparse` raises instead (see the counterexample). -/
theorem http_empty_path_ok :
    (∀ t : Str, bracketBad (netlocOf (httpPre7 ++ t) 7) = false →
      (∀ c ∈ httpPathOf (httpPre7 ++ t) 7, c = '/') →
      ∃ h0, parse_git_url (httpPre7 ++ t) = PRes.ok h0 []) ∧
    (∀ t : Str, bracketBad (netlocOf (httpsPre8 ++ t) 8) = false →
      (∀ c ∈ httpPathOf (httpsPre8 ++ t) 8, c = '/') →
      ∃ h0, parse_git_url (httpsPre8 ++ t) = PRes.ok h0 []) := by
  constructor
  · intro t hb hall
    refine ⟨(pyHostname (netlocOf (httpPre7 ++ t) 7)).getD (netlocOf (httpPre7 ++ t) 7), ?_⟩
    rw [parse_http7_step, httpParse_all_slash _ 7 hb hall]
  · intro t hb hall
    refine ⟨(pyHostname (netlocOf (httpsPre8 ++ t) 8)).getD (netlocOf (httpsPre8 ++ t) 8), ?_⟩
    rw [parse_http8_step, httpParse_all_slash _ 8 hb hall]

/-- Witness for C10 (amended) on `https://github.com` and
`https://github.com/`. -/
theorem http_empty_path_ok_witness :
    (∃ h0, parse_git_url (httpsPre8 ++ str "github.com") = PRes.ok h0 []) ∧
    (∃ h0, parse_git_url (httpsPre8 ++ str "github.com/") = PRes.ok h0 []) ∧
    parse_git_url (str "https://github.com") = PRes.ok (str "github.com") [] :=
  ⟨http_empty_path_ok.2 (str "github.com") (by decide) (by decide),
   http_empty_path_ok.2 (str "github.com/") (by decide) (by decide),
   by decide⟩

/-- C4 amended: `parse_git_url` always returns a complete `(host, path)`
pair or `ParseFailure`, *except* that it propagates `urlparse`'s
`ValueError` exactly on `http(s)` inputs whose authority has a `[`
without `]` or vice versa (after the tab/CR/LF removal `urlparse`
performs).  The model omits `urlparse`'s additional non-ASCII NFKC
netloc check, so only ASCII authorities are characterized. -/
theorem parse_raised_iff (url : Str) :
    parse_git_url url = PRes.raised ↔
      ((httpPre7.isPrefixOf url = true ∧ bracketBad (netlocOf url 7) = true) ∨
       (httpsPre8.isPrefixOf url = true ∧ bracketBad (netlocOf url 8) = true)) := by
  constructor
  · intro h
    unfold parse_git_url at h
    by_cases hemp : url.isEmpty = true
    · rw [if_pos hemp] at h
      cases h
    · rw [if_neg hemp] at h
      by_cases hpre : sshPre.isPrefixOf url = true
      · rw [if_pos hpre] at h
        cases hssh : parseSsh url with
        | some pr =>
          obtain ⟨h1, p1⟩ := pr
          rw [hssh] at h
          have h2 : PRes.ok h1 p1 = PRes.raised := h
          cases h2
        | none =>
          rw [hssh] at h
          have h2 : parse_rest url = PRes.raised := h
          unfold parse_rest at h2
          by_cases h7 : httpPre7.isPrefixOf url = true
          · rw [if_pos h7] at h2
            cases hh : httpParse url 7 with
            | error e =>
              exact Or.inl ⟨h7, httpParse_error_bracket url 7 e hh⟩
            | ok pr =>
              obtain ⟨a, b⟩ := pr
              rw [hh] at h2
              have h3 : PRes.ok a b = PRes.raised := h2
              cases h3
          · rw [if_neg h7] at h2
            by_cases h8 : httpsPre8.isPrefixOf url = true
            · rw [if_pos h8] at h2
              cases hh : httpParse url 8 with
              | error e =>
                exact Or.inr ⟨h8, httpParse_error_bracket url 8 e hh⟩
              | ok pr =>
                obtain ⟨a, b⟩ := pr
                rw [hh] at h2
                have h3 : PRes.ok a b = PRes.raised := h2
                cases h3
            · rw [if_neg h8] at h2
              cases hsh : sshShorthand url with
              | some pr =>
                obtain ⟨a, b⟩ := pr
                rw [hsh] at h2
                have h3 : PRes.ok a (rstripSlash (lstripSlash b)) = PRes.raised := h2
                cases h3
              | none =>
                rw [hsh] at h2
                have h3 : PRes.fail = PRes.raised := h2
                cases h3
      · rw [if_neg hpre] at h
        have h2 : parse_rest url = PRes.raised := h
        unfold parse_rest at h2
        by_cases h7 : httpPre7.isPrefixOf url = true
        · rw [if_pos h7] at h2
          cases hh : httpParse url 7 with
          | error e =>
            exact Or.inl ⟨h7, httpParse_error_bracket url 7 e hh⟩
          | ok pr =>
            obtain ⟨a, b⟩ := pr
            rw [hh] at h2
            have h3 : PRes.ok a b = PRes.raised := h2
            cases h3
        · rw [if_neg h7] at h2
          by_cases h8 : httpsPre8.isPrefixOf url = true
          · rw [if_pos h8] at h2
            cases hh : httpParse url 8 with
            | error e =>
              exact Or.inr ⟨h8, httpParse_error_bracket url 8 e hh⟩
            | ok pr =>
              obtain ⟨a, b⟩ := pr
              rw [hh] at h2
              have h3 : PRes.ok a b = PRes.raised := h2
              cases h3
          · rw [if_neg h8] at h2
            cases hsh : sshShorthand url with
            | some pr =>
              obtain ⟨a, b⟩ := pr
              rw [hsh] at h2
              have h3 : PRes.ok a (rstripSlash (lstripSlash b)) = PRes.raised := h2
              cases h3
            | none =>
              rw [hsh] at h2
              have h3 : PRes.fail = PRes.raised := h2
              cases h3
  · intro h
    rcases h with ⟨h7, hb⟩ | ⟨h8, hb⟩
    · obtain ⟨t, ht⟩ := List.isPrefixOf_iff_prefix.mp h7
      subst ht
      rw [parse_http7_step, bracket_httpParse_error _ 7 hb]
    · obtain ⟨t, ht⟩ := List.isPrefixOf_iff_prefix.mp h8
      subst ht
      rw [parse_http8_step, bracket_httpParse_error _ 8 hb]

/-! ### Round-trip for the shorthand grammar -/

theorem isEmpty_false_of_ne {l : Str} (h : l ≠ []) : l.isEmpty = false := by
  cases l with
  | nil => exact absurd rfl h
  | cons a l2 => rfl

theorem takeWhile_append_ex {p : Char → Bool} : ∀ {l1 : Str} (l2 : Str),
    (∃ a ∈ l1, p a = false) → (l1 ++ l2).takeWhile p = l1.takeWhile p := by
  intro l1
  induction l1 with
  | nil =>
    intro l2 h
    obtain ⟨a, ha, _⟩ := h
    simp at ha
  | cons c cs ih =>
    intro l2 h
    by_cases hc : p c = true
    · simp only [List.cons_append, List.takeWhile_cons, hc, if_true]
      obtain ⟨a, ha, hpa⟩ := h
      rcases List.mem_cons.mp ha with rfl | ha2
      · rw [hc] at hpa
        cases hpa
      · rw [ih l2 ⟨a, ha2, hpa⟩]
    · have hc2 : p c = false := by revert hc; cases p c <;> simp
      simp [List.takeWhile_cons, hc2]

theorem drop_takeWhile_length (p : Char → Bool) (h x : Str) :
    (h ++ x).drop (h.takeWhile p).length = h.dropWhile p ++ x := by
  have h1 : h ++ x = h.takeWhile p ++ (h.dropWhile p ++ x) := by
    rw [← List.append_assoc, List.takeWhile_append_dropWhile]
  rw [h1, List.drop_left]

theorem unique_colon_split : ∀ (h w q y : Str), ':' ∉ h → ':' ∉ w →
    h ++ ':' :: q = w ++ ':' :: y → h = w ∧ q = y := by
  intro h
  induction h with
  | nil =>
    intro w q y _ hw heq
    cases w with
    | nil => simpa using heq
    | cons b w2 =>
      exfalso
      simp only [List.nil_append, List.cons_append, List.cons.injEq] at heq
      exact hw (heq.1 ▸ List.mem_cons_self b w2)
  | cons a h2 ih =>
    intro w q y hh hw heq
    cases w with
    | nil =>
      exfalso
      simp only [List.cons_append, List.nil_append, List.cons.injEq] at heq
      apply hh
      rw [heq.1]
      exact List.mem_cons_self ':' h2
    | cons b w2 =>
      simp only [List.cons_append, List.cons.injEq] at heq
      obtain ⟨rfl, heq2⟩ := heq
      obtain ⟨h3, h4⟩ := ih w2 q y (fun hm => hh (List.mem_cons_of_mem a hm))
        (fun hm => hw (List.mem_cons_of_mem a hm)) heq2
      exact ⟨by rw [h3], h4⟩

theorem marker_not_prefix (w h q : Str) (hwcol : ':' ∉ w) (hcol : ':' ∉ h)
    (hq : q.head? ≠ some '/') :
    (w ++ ':' :: '/' :: '/' :: []).isPrefixOf (h ++ ':' :: q) = false := by
  cases hv : (w ++ ':' :: '/' :: '/' :: []).isPrefixOf (h ++ ':' :: q) with
  | false => rfl
  | true =>
    exfalso
    obtain ⟨s, hs⟩ := List.isPrefixOf_iff_prefix.mp hv
    have hs2 : h ++ ':' :: q = w ++ ':' :: ('/' :: '/' :: s) := by
      rw [← hs]
      simp
    obtain ⟨-, hqe⟩ := unique_colon_split h w q ('/' :: '/' :: s) hcol hwcol hs2
    rw [hqe] at hq
    simp at hq

theorem userTail_reconstruct (h q : Str) (hne : h ≠ []) (_hcol : ':' ∉ h)
    (hua : userAt h = false) : userTail (h ++ ':' :: q) = none := by
  simp only [userTail]
  by_cases hw : ∀ c ∈ h, wordChar c = true
  · have hrun : (h ++ ':' :: q).takeWhile wordChar = h := by
      rw [takeWhile_append_all (':' :: q) hw, takeWhile_cons_false _ (by decide)]
      simp
    rw [hrun, isEmpty_false_of_ne hne]
    rw [List.drop_left h (':' :: q)]
    simp
  · have hex : ∃ c ∈ h, wordChar c = false := by
      push_neg at hw
      obtain ⟨c, hc, hfc⟩ := hw
      exact ⟨c, hc, by revert hfc; cases wordChar c <;> simp⟩
    have hrun : (h ++ ':' :: q).takeWhile wordChar = h.takeWhile wordChar :=
      takeWhile_append_ex (':' :: q) hex
    rw [hrun]
    by_cases hemp2 : (h.takeWhile wordChar).isEmpty = true
    · rw [if_pos hemp2]
    · rw [if_neg hemp2]
      rw [drop_takeWhile_length wordChar h (':' :: q)]
      have hh2 : ((h.dropWhile wordChar).head? == some '@') = false := by
        cases hx : ((h.dropWhile wordChar).head? == some '@') with
        | false => rfl
        | true =>
          exfalso
          have hie : (h.takeWhile wordChar).isEmpty = false := by
            revert hemp2
            cases (h.takeWhile wordChar).isEmpty <;> simp
          unfold userAt at hua
          rw [hx, hie] at hua
          simp at hua
      cases hdw : h.dropWhile wordChar with
      | nil =>
        exfalso
        rw [List.dropWhile_eq_nil_iff] at hdw
        obtain ⟨c, hc, hfc⟩ := hex
        have := hdw c hc
        rw [hfc] at this
        cases this
      | cons c h3 =>
        rw [hdw] at hh2
        have hc : ¬(c = '@') := by
          intro he
          subst he
          simp at hh2
        simp [List.cons_append, hc]

theorem reInner_reconstruct (h p2 : Str) (hne : h ≠ []) (hcol : ':' ∉ h)
    (hpne : p2 ≠ []) (hnl : ∀ c ∈ p2, c ≠ '\n') :
    reInner (h ++ ':' :: (p2 ++ dotGit)) = some (h, p2) := by
  simp only [reInner]
  have hA : (h ++ ':' :: (p2 ++ dotGit)).takeWhile (· ≠ ':') = h := by
    rw [takeWhile_append_all (':' :: (p2 ++ dotGit)) (fun c hc => by
      simp only [decide_eq_true_eq]
      intro he
      exact hcol (he ▸ hc))]
    rw [takeWhile_cons_false _ (by decide)]
    simp
  rw [hA]
  rw [List.drop_left h (':' :: (p2 ++ dotGit))]
  simp [isEmpty_false_of_ne hne, reTail_append_dotGit hpne hnl]

/-- C5 amended: the SSH-shorthand round-trip holds for every parse whose
host triggers no `user@` stripping when re-parsed and whose path is
non-empty: under those conditions (all others — `:`-free host, no
leading/trailing `/`, newline-free path — are automatic for shorthand
parses), re-normalizing `host ++ ":" ++ path ++ ".git"` returns the same
pair.  The counterexample shows both extra conditions are necessary. -/
theorem shorthand_round_trip (h p : Str)
    (hne : h ≠ []) (hcol : ':' ∉ h) (hua : userAt h = false)
    (hpne : p ≠ []) (hph : p.head? ≠ some '/') (hpl : p.getLast? ≠ some '/')
    (hnl : ∀ c ∈ p, c ≠ '\n') :
    parse_git_url (h ++ ':' :: (p ++ dotGit)) = PRes.ok h p := by
  have hq : (p ++ dotGit).head? ≠ some '/' := by
    cases p with
    | nil => exact absurd rfl hpne
    | cons a p2 =>
      simp only [List.cons_append, List.head?_cons]
      simpa using hph
  have hemp : (h ++ ':' :: (p ++ dotGit)).isEmpty = false := by
    cases h with
    | nil => exact absurd rfl hne
    | cons a h2 => rfl
  have hs1 : sshPre.isPrefixOf (h ++ ':' :: (p ++ dotGit)) = false :=
    marker_not_prefix (str "ssh") h (p ++ dotGit) (by decide) hcol hq
  have hs7 : httpPre7.isPrefixOf (h ++ ':' :: (p ++ dotGit)) = false :=
    marker_not_prefix (str "http") h (p ++ dotGit) (by decide) hcol hq
  have hs8 : httpsPre8.isPrefixOf (h ++ ':' :: (p ++ dotGit)) = false :=
    marker_not_prefix (str "https") h (p ++ dotGit) (by decide) hcol hq
  rw [parse_shorthand_step _ hemp hs1 hs7 hs8]
  have hsh : sshShorthand (h ++ ':' :: (p ++ dotGit)) = some (h, p) := by
    unfold sshShorthand
    rw [userTail_reconstruct h (p ++ dotGit) hne hcol hua]
    exact reInner_reconstruct h p hne hcol hpne hnl
  rw [hsh]
  show PRes.ok h (rstripSlash (lstripSlash p)) = PRes.ok h p
  rw [lstripSlash_eq_self hph, rstripSlash_eq_self hpl]

/-- Witness for C5 (amended) on the spec's `github.com:user/repo`
shorthand pair. -/
theorem shorthand_round_trip_witness :
    parse_git_url (str "github.com" ++ ':' :: (str "user/repo" ++ dotGit)) =
      PRes.ok (str "github.com") (str "user/repo") :=
  shorthand_round_trip (str "github.com") (str "user/repo") (by decide) (by decide)
    (by decide) (by decide) (by decide) (by decide) (by decide)
